import Mathlib

/-!
# Packy `diskman` — a verification development of `src/diskman/main.c`

The program is a terminal mock-up of a partition manager: a hardcoded partition
table, a menu, and a key loop that moves two highlights.  This file embeds

* the global data (`headers`, `partitions`, `menu_choices`),
* the rendering done by `print_centered` and `show_diskman` (as the list of characters
  written to standard output), and
* the key loop of `main` as a machine that consumes one `getchar()` result at a time,

and then states and proves properties of them.

Conventions of the embedding.

* C `int` values are Lean `Int`; `/` and `%` on `int` are `Int.tdiv` and `Int.tmod`
  (truncation toward zero).  An `int` result outside `[INT_MIN, INT_MAX]` is undefined
  behaviour and is modelled as `none`.
* `unsigned long` fields of the table hold the literal values of the initialiser, all far
  below `2^64`; they are `Nat`.
* C strings are `String` (the table) or `List Char` (text being printed).
* An array read outside its bounds is undefined behaviour and is modelled as `none`.
-/

namespace Diskman

/-! ## Global data (main.c:9-35) -/

/-- Column titles, `headers[]` (main.c:9-11). -/
def headers : List String :=
  ["Device", "Start", "End", "Sectors", "Size", "Id", "Type"]

/-- The constant `n_headers = sizeof(headers) / sizeof(headers[0])` (main.c:12). -/
def n_headers : Int := headers.length

/-- One row of the table, `struct Partition` (main.c:15-23).  The field `end` of the source
is `end_` here, `end` being reserved in Lean. -/
structure Partition where
  device : String
  start : Nat
  end_ : Nat
  sectors : Nat
  size : String
  id : String
  type : String
  deriving DecidableEq, Repr

/-- The initialiser of the global array `partitions[]` (main.c:25-29). -/
def partitions : List Partition :=
  [ ⟨"/dev/nvme0n1", 2048, 1026047, 1024000, "500M", "83", "Linux"⟩,
    ⟨"/dev/nvme0n2", 1026048, 2097151, 1071104, "512M", "82", "Linux swap"⟩,
    ⟨"/dev/nvme0n3", 2097152, 8388607, 6291456, "3G", "83", "Linux"⟩ ]

/-- The constant `n_partitions = sizeof(partitions) / sizeof(partitions[0])` (main.c:30). -/
def n_partitions : Int := partitions.length

/-- Menu entries, `menu_choices[]` (main.c:32-34). -/
def menu_choices : List String :=
  ["Quit", "Resize", "Delete", "Write"]

/-- The constant `n_menu_choices = sizeof(menu_choices) / sizeof(menu_choices[0])`
(main.c:35). -/
def n_menu_choices : Int := menu_choices.length

/-- The local `disk` of `main` (main.c:142). -/
def disk : String := "/dev/sda"

/-- The local `size_info` of `main` (main.c:143-144). -/
def size_info : String := "Size: 40 GiB, 85438958 sectors, 5487787239487 bytes"

/-! ## C integer arithmetic -/

/-- Least value of a C `int` (32 bits). -/
def INT_MIN : Int := -2147483648

/-- Greatest value of a C `int` (32 bits). -/
def INT_MAX : Int := 2147483647

/-- Result of an `int` operation whose mathematical value is `v`: defined only when `v` is
representable. -/
def intResult (v : Int) : Option Int :=
  if INT_MIN ≤ v ∧ v ≤ INT_MAX then some v else none

/-- The conversion in `char c = getchar();` for a signed 8-bit `char`: the value is reduced
modulo 256 into `[-128, 127]`. -/
def toChar (v : Int) : Int := (v + 128) % 256 - 128

/-- The same conversion on a target whose plain `char` is unsigned. -/
def toUChar (v : Int) : Int := v % 256

/-! ## Text output (main.c:51-80) -/

/-- `snprintf(buf, size, ...)` keeps at most `size - 1` characters of the formatted text. -/
def snprintf (size : Nat) (text : List Char) : List Char := text.take (size - 1)

/-- `strncat(dst, src, n)` appends at most `n` characters of `src`. -/
def strncat (dst src : List Char) (n : Nat) : List Char := dst ++ src.take n

/-- `printf("%-*s", w, s)`: `s` left-justified in a field of at least `w` characters. -/
def fmtLeft (w : Nat) (s : List Char) : List Char :=
  s ++ List.replicate (w - s.length) ' '

/-- `printf("%*s", w, s)`: `s` right-justified in a field of at least `w` characters. -/
def fmtRight (w : Nat) (s : List Char) : List Char :=
  List.replicate (w - s.length) ' ' ++ s

/-- `printf("%*lu", w, n)`: the decimal digits of `n`, right-justified. -/
def fmtULong (w : Nat) (n : Nat) : List Char :=
  fmtRight w (Nat.toDigits 10 n)

/-- Characters written by `clear_screen` (main.c:51-54). -/
def clear_screen : List Char := "\x1b[2J\x1b[H".toList

/-- Characters written by `hide_cursor` (main.c:56-59). -/
def hide_cursor : List Char := "\x1b[?25l".toList

/-- Characters written by `show_cursor` (main.c:61-64). -/
def show_cursor : List Char := "\x1b[?25h".toList

/-- The clamped padding `p = (term_width - used) / 2; if (p < 0) p = 0;`
(main.c:76-77 and 100-101), as a number of spaces. -/
def centrePadding (term_width used : Int) : Nat :=
  let padding := (term_width - used).tdiv 2
  (if padding < 0 then 0 else padding).toNat

/-- Characters written by `print_centered(text)` (main.c:74-80) when
`get_terminal_width()` returns `term_width`. -/
def print_centered (term_width : Int) (text : List Char) : List Char :=
  List.replicate (centrePadding term_width text.length) ' ' ++ text ++ ['\n']

/-! ## `show_diskman` (main.c:82-139) -/

/-- The local array `widths[]` of `show_diskman` (main.c:94). -/
def widths : List Nat := [11, 1, 10, 10, 10, 7, 3, 12]

/-- The array read `widths[i]`. -/
def width (i : Nat) : Nat := widths.getD i 0

/-- The accumulation `for (i = 0; i < n_headers; i++) table_width += widths[i] + 1;`
(main.c:95-96). -/
def table_width : Int :=
  (List.range n_headers.toNat).foldl (fun acc i => acc + ((width i : Int) + 1)) 0

/-- One iteration of the header loop, `printf("%-*s ", widths[i], headers[i])`
(main.c:104). -/
def headerCell (i : Nat) (h : String) : List Char :=
  fmtLeft (width i) h.toList ++ [' ']

/-- Text of the header loop (main.c:103-105). -/
def headerLine : List Char :=
  (headers.enum.map fun ih => headerCell ih.1 ih.2).flatten

/-- The seven fields of the row `printf` (main.c:113-120), in order, each formatted with
the width the call passes for it. -/
def rowCells (p : Partition) : List (List Char) :=
  [ fmtLeft (width 0) p.device.toList,
    fmtULong (width 2) p.start,
    fmtULong (width 3) p.end_,
    fmtULong (width 4) p.sectors,
    fmtRight (width 5) p.size.toList,
    fmtRight (width 6) p.id.toList,
    fmtLeft (width 7) p.type.toList ]

/-- Text of the row `printf` (main.c:113-120): the seven fields with one space between
consecutive fields, as in the format `"%-*s %*lu %*lu %*lu %*s %*s %-*s"`. -/
def rowText (p : Partition) : List Char :=
  [' '].intercalate (rowCells p)

/-- Reverse-video escape `"\033[7m"`. -/
def reverseVideo : List Char := "\x1b[7m".toList

/-- Attribute reset escape `"\033[0m"`. -/
def resetVideo : List Char := "\x1b[0m".toList

/-- One iteration of the partition loop (main.c:110-123): the line for entry `i`. -/
def partitionLine (padding : Nat) (part_highlight : Int) (i : Nat) (p : Partition) :
    List Char :=
  List.replicate padding ' '
    ++ (if (i : Int) = part_highlight then reverseVideo else [])
    ++ rowText p
    ++ (if (i : Int) = part_highlight then resetVideo else [])
    ++ ['\n']

/-- The lines of the partition loop (main.c:109-124), one per entry of the table, in
index order (`n_partitions` is the number of entries of the array). -/
def partitionLines (padding : Nat) (part_highlight : Int) (table : List Partition) :
    List (List Char) :=
  table.enum.map fun ip => partitionLine padding part_highlight ip.1 ip.2

/-- The `snprintf` into `buf[64]` for menu entry `i` (main.c:130-135). -/
def menuItem (menu_highlight : Int) (i : Nat) (choice : String) : List Char :=
  if (i : Int) = menu_highlight then
    snprintf 64 (['['] ++ reverseVideo ++ choice.toList ++ resetVideo ++ [']', ' '])
  else
    snprintf 64 (['['] ++ choice.toList ++ [']', ' '])

/-- The items of the menu loop (main.c:129-137), one per entry of `menu_choices`. -/
def menuItems (menu_highlight : Int) : List (List Char) :=
  menu_choices.enum.map fun ic => menuItem menu_highlight ic.1 ic.2

/-- The buffer `menu_line[512]` after the menu loop (main.c:128-137): every item is
appended with `strncat(menu_line, buf, sizeof(menu_line) - strlen(menu_line) - 1)`. -/
def menu_line (menu_highlight : Int) : List Char :=
  (menuItems menu_highlight).foldl (fun line buf => strncat line buf (512 - line.length - 1)) []

/-- Characters written by one call of `show_diskman` (main.c:82-139) when
`get_terminal_width()` returns `term_width` and the global array holds `table`. -/
def show_diskman (term_width : Int) (table : List Partition)
    (part_highlight menu_highlight : Int) (disk size_info : String) : List Char :=
  let disk_line := snprintf 128 ("Disk: ".toList ++ disk.toList)
  let padding := centrePadding term_width table_width
  clear_screen
    ++ print_centered term_width disk_line
    ++ print_centered term_width size_info.toList
    ++ ['\n']
    ++ List.replicate padding ' ' ++ headerLine ++ ['\n']
    ++ (partitionLines padding part_highlight table).flatten
    ++ ['\n']
    ++ print_centered term_width (menu_line menu_highlight)

/-! ## The key loop of `main` (main.c:141-188)

`getchar()` blocks until the terminal delivers a byte, so the loop is embedded as a machine
that is always waiting inside one of the four `getchar()` calls of the loop (or has left
the loop) and that is advanced by the value the pending call returns: a byte `0 .. 255`,
or `EOF = -1`. -/

/-- The variables in scope while the loop runs, apart from the temporaries `c` and `dir`:
the global array `partitions` and the locals of `main`. -/
@[ext]
structure Vars where
  partitions : List Partition
  disk : String
  size_info : String
  part_highlight : Int
  menu_highlight : Int
  running : Int
  deriving DecidableEq, Repr

/-- The `getchar()` call the program is waiting in. -/
inductive Pc where
  /-- `char c = getchar();` (main.c:156), reached after `show_diskman` has drawn. -/
  | top
  /-- `getchar(); // skip '['` (main.c:158). -/
  | escSkip
  /-- `char dir = getchar();` (main.c:159). -/
  | escDir
  /-- `while (getchar() != '\n');` (main.c:179). -/
  | waitEnter
  /-- The `while (running)` loop has been left (main.c:184-187); nothing is read any more. -/
  | exited
  deriving DecidableEq, Repr

/-- A configuration: where the program waits, its variables, and everything written to
standard output so far. -/
structure Machine where
  pc : Pc
  vars : Vars
  out : List Char
  deriving DecidableEq, Repr

/-- An array read `arr[i]` with an `int` index. -/
def arrayRead {α : Type} (arr : List α) (i : Int) : Option α :=
  if 0 ≤ i then arr[i.toNat]? else none

/-- The end of one pass through the loop body: the test `while (running)` (main.c:153),
then either `show_diskman(...)` and the wait at `top` (main.c:154-156), or the code after
the loop (main.c:184-186). -/
def loopHead (term_width : Int) (v : Vars) (out : List Char) : Machine :=
  if v.running ≠ 0 then
    { pc := .top, vars := v,
      out := out ++ show_diskman term_width v.partitions v.part_highlight v.menu_highlight
        v.disk v.size_info }
  else
    { pc := .exited, vars := v, out := out ++ show_cursor ++ "Exiting...\n".toList }

/-- `(part_highlight - 1 + n) % n`, evaluated left to right in `int` (main.c:161, 167). -/
def decWrap (h n : Int) : Option Int :=
  (intResult (h - 1)).bind fun a => (intResult (a + n)).map fun b => b.tmod n

/-- `(part_highlight + 1) % n`, evaluated in `int` (main.c:163, 165). -/
def incWrap (h n : Int) : Option Int :=
  (intResult (h + 1)).map fun a => a.tmod n

/-- The pending `getchar()` returns `g`: run the program up to its next `getchar()`
(main.c:156-182).  `none` is undefined behaviour. -/
def step (term_width : Int) (m : Machine) (g : Int) : Option Machine :=
  match m.pc with
  | .top =>
    let c := toChar g
    if c = 27 then
      some { m with pc := .escSkip }
    else if c = 10 then
      match arrayRead m.vars.partitions m.vars.part_highlight,
          arrayRead menu_choices m.vars.menu_highlight with
      | some p, some choice =>
        let out := m.out ++ clear_screen
          ++ "Partition: ".toList ++ p.device.toList ++ ['\n']
          ++ "Action: ".toList ++ choice.toList ++ ['\n', '\n']
        if choice = "Quit" then
          some (loopHead term_width { m.vars with running := 0 } out)
        else
          some { pc := .waitEnter, vars := m.vars,
                 out := out ++ "Press Enter to return to menu...".toList }
      | _, _ => none
    else
      some (loopHead term_width m.vars m.out)
  | .escSkip => some { m with pc := .escDir }
  | .escDir =>
    let dir := toChar g
    if dir = 65 then
      (decWrap m.vars.part_highlight n_partitions).map fun h =>
        loopHead term_width { m.vars with part_highlight := h } m.out
    else if dir = 66 then
      (incWrap m.vars.part_highlight n_partitions).map fun h =>
        loopHead term_width { m.vars with part_highlight := h } m.out
    else if dir = 67 then
      (incWrap m.vars.menu_highlight n_menu_choices).map fun h =>
        loopHead term_width { m.vars with menu_highlight := h } m.out
    else if dir = 68 then
      (decWrap m.vars.menu_highlight n_menu_choices).map fun h =>
        loopHead term_width { m.vars with menu_highlight := h } m.out
    else
      some (loopHead term_width m.vars m.out)
  | .waitEnter =>
    if g ≠ 10 then some m else some (loopHead term_width m.vars m.out)
  | .exited => some m

/-- Feed the results of successive `getchar()` calls to the program. -/
def exec (term_width : Int) (m : Machine) : List Int → Option Machine
  | [] => some m
  | g :: gs => (step term_width m g).bind fun m' => exec term_width m' gs

/-- The values of the variables when the loop is entered (main.c:25-29, 142-151). -/
def initVars : Vars :=
  { partitions := partitions, disk := disk, size_info := size_info,
    part_highlight := 0, menu_highlight := 0, running := 1 }

/-- The configuration at the first `getchar()`: `hide_cursor()` has run and the first
frame is drawn (main.c:146-156). -/
def init (term_width : Int) : Machine :=
  loopHead term_width initVars hide_cursor

/-- The bytes a terminal sends for the Up arrow. -/
def keyUp : List Int := [27, 91, 65]

/-- The bytes a terminal sends for the Down arrow. -/
def keyDown : List Int := [27, 91, 66]

/-- The bytes a terminal sends for the Right arrow. -/
def keyRight : List Int := [27, 91, 67]

/-- The bytes a terminal sends for the Left arrow. -/
def keyLeft : List Int := [27, 91, 68]

/-! ## Vocabulary of the statements -/

/-- Both highlights index an existing entry. -/
def InRange (v : Vars) : Prop :=
  0 ≤ v.part_highlight ∧ v.part_highlight < n_partitions ∧
  0 ≤ v.menu_highlight ∧ v.menu_highlight < n_menu_choices

instance (v : Vars) : Decidable (InRange v) := by
  unfold InRange; infer_instance

/-- Whether `pat` occurs as a contiguous run of characters in the given text. -/
def occursIn (pat : List Char) : List Char → Bool
  | [] => pat.isEmpty
  | c :: cs => pat.isPrefixOf (c :: cs) || occursIn pat cs

/-- A printed line or menu item is highlighted when it switches reverse video on. -/
def isHighlighted (text : List Char) : Bool := occursIn reverseVideo text

/-- Split a text at its spaces. -/
def splitWords : List Char → List (List Char)
  | [] => [[]]
  | c :: cs =>
    match splitWords cs with
    | [] => [[]]
    | w :: ws => if c = ' ' then [] :: w :: ws else (c :: w) :: ws

/-- The value of a run of decimal digits. -/
def digitsValue (cs : List Char) : Option Nat :=
  if cs ≠ [] ∧ cs.all Char.isDigit then
    some (cs.foldl (fun n c => 10 * n + (c.toNat - '0'.toNat)) 0)
  else none

/-- The word that stands right before the word `key`. -/
def wordBefore (key : List Char) : List (List Char) → Option (List Char)
  | a :: b :: rest => if b = key then some a else wordBefore key (b :: rest)
  | _ => none

/-- The sector count a header text such as `size_info` shows: the number in front of the
word `sectors,`. -/
def shownSectorCount (text : String) : Option Nat :=
  (wordBefore "sectors,".toList (splitWords text.toList)).bind digitsValue

/-- The number of bytes a size label such as `500M` or `3G` denotes in binary units. -/
def labelBytes (label : String) : Option Nat :=
  match label.toList.reverse with
  | 'M' :: ds => (digitsValue ds.reverse).map fun n => n * 2 ^ 20
  | 'G' :: ds => (digitsValue ds.reverse).map fun n => n * 2 ^ 30
  | _ => none

/-- Split a text at its newlines: the lines of the output, the last one being what
follows the last newline. -/
def splitLines : List Char → List (List Char)
  | [] => [[]]
  | c :: cs =>
    match splitLines cs with
    | [] => [[]]
    | l :: ls => if c = '\n' then [] :: l :: ls else (c :: l) :: ls

/-- A line without its leading spaces. -/
def dropPad (line : List Char) : List Char := line.dropWhile fun c => c = ' '

/-- Whether a text contains the escape character `'\033'`. -/
def hasEscape (text : List Char) : Bool := text.any fun c => c = '\x1b'

/-- A text shown in reverse video: it starts by switching reverse video on, ends by
resetting the attributes, and holds no other escape sequence. -/
def isMarked (text : List Char) : Bool :=
  reverseVideo.isPrefixOf text && resetVideo.isSuffixOf text
    && text.count '\x1b' == 2

/-- A menu item `[...]` whose text between the brackets is shown in reverse video. -/
def isMarkedItem : List Char → Bool
  | '[' :: rest => rest.getLast? == some ']' && isMarked rest.dropLast
  | _ => false

/-- The partition rows of a frame drawn by `show_diskman`: the `n_partitions` lines that
follow the four lines of the heading (disk, size, empty line, column titles), each without
its leading spaces. -/
def shownRows (frame : List Char) : List (List Char) :=
  (((splitLines frame).drop 4).take n_partitions.toNat).map dropPad

/-- The menu of a frame drawn by `show_diskman`: the line after the partition rows and one
empty line, without its leading spaces, split at its spaces. -/
def shownMenuWords (frame : List Char) : List (List Char) :=
  splitWords (dropPad ((splitLines frame).getD (4 + n_partitions.toNat + 1) []))

/-- The line for entry `i` of the partition loop (main.c:110-122) before its newline. -/
def partitionBody (padding : Nat) (part_highlight : Int) (i : Nat) (p : Partition) :
    List Char :=
  List.replicate padding ' '
    ++ ((if (i : Int) = part_highlight then reverseVideo else [])
    ++ (rowText p
    ++ (if (i : Int) = part_highlight then resetVideo else [])))

/-- The lines of the partition loop before their newlines. -/
def partitionBodies (padding : Nat) (part_highlight : Int) (table : List Partition) :
    List (List Char) :=
  table.enum.map fun ip => partitionBody padding part_highlight ip.1 ip.2

/-- The last frame is on the screen: unless the program waits for the second Enter or has
left the loop, the output ends with the frame `show_diskman` draws for the current
variables (the call of main.c:154). -/
def FrameShown (term_width : Int) (m : Machine) : Prop :=
  m.pc = .waitEnter ∨ m.pc = .exited ∨
    ∃ pre, m.out = pre ++ show_diskman term_width m.vars.partitions m.vars.part_highlight
      m.vars.menu_highlight m.vars.disk m.vars.size_info

/-- A configuration at the top of the loop with the given highlights, the other variables
as initially, and nothing printed yet. -/
def atTop (part_highlight menu_highlight : Int) : Machine :=
  { pc := .top,
    vars := { initVars with
      part_highlight := part_highlight, menu_highlight := menu_highlight },
    out := [] }

/-- What holds of every configuration the program can be in: the table and the two text
locals are the initial ones, the highlights are in range, and `running` is `1` until the
loop is left and `0` from then on. -/
def Inv (m : Machine) : Prop :=
  m.vars.partitions = partitions ∧ m.vars.disk = disk ∧ m.vars.size_info = size_info ∧
  InRange m.vars ∧
  ((m.vars.running = 1 ∧ m.pc ≠ .exited) ∨ (m.vars.running = 0 ∧ m.pc = .exited))

/-! ## Basic facts about the embedding -/

theorem n_partitions_eq : n_partitions = 3 := by decide

theorem n_menu_choices_eq : n_menu_choices = 4 := by decide

theorem n_headers_eq : n_headers = 7 := by decide

/-- Every string of the initialiser fits, with its terminating NUL, in the `char` array of
its field (`device[16]`, `size[8]`, `id[4]`, `type[32]`), so no text of the table is cut. -/
theorem partitions_fit_fields :
    ∀ p ∈ partitions, p.device.length + 1 ≤ 16 ∧ p.size.length + 1 ≤ 8 ∧
      p.id.length + 1 ≤ 4 ∧ p.type.length + 1 ≤ 32 := by
  decide

/-- The comparisons the loop makes on a converted `char` (with 27, 10 and 65 .. 68) come
out the same whether plain `char` is signed or unsigned. -/
theorem toChar_eq_iff_toUChar_eq (g k : Int) (h0 : 0 ≤ k) (h1 : k < 128) :
    toChar g = k ↔ toUChar g = k := by
  unfold toChar toUChar
  omega

/-- On the values `getchar()` can return, converting to `char` and comparing with a
7-bit character is comparing the value itself. -/
theorem toChar_eq_iff (g k : Int) (hg0 : -1 ≤ g) (hg1 : g ≤ 255) (h0 : 0 ≤ k)
    (h1 : k < 128) : toChar g = k ↔ g = k := by
  unfold toChar
  omega

theorem loopHead_vars (tw : Int) (v : Vars) (out : List Char) :
    (loopHead tw v out).vars = v := by
  unfold loopHead
  split <;> rfl

theorem loopHead_pc_running (tw : Int) (v : Vars) (out : List Char) (h : v.running ≠ 0) :
    (loopHead tw v out).pc = .top := by
  unfold loopHead
  rw [if_pos h]

theorem loopHead_pc_stopped (tw : Int) (v : Vars) (out : List Char) (h : v.running = 0) :
    (loopHead tw v out).pc = .exited := by
  unfold loopHead
  rw [if_neg (by simpa using h)]

theorem decWrap_in_range (h n : Int) (h0 : 0 ≤ h) (h1 : h < n) (hn : n ≤ 1000) :
    decWrap h n = some ((h - 1 + n) % n) := by
  have ha : intResult (h - 1) = some (h - 1) := by
    unfold intResult INT_MIN INT_MAX
    rw [if_pos (by omega)]
  have hb : intResult (h - 1 + n) = some (h - 1 + n) := by
    unfold intResult INT_MIN INT_MAX
    rw [if_pos (by omega)]
  unfold decWrap
  rw [ha, Option.some_bind, hb, Option.map_some']
  rw [Int.tmod_eq_emod (by omega) (by omega)]

theorem incWrap_in_range (h n : Int) (h0 : 0 ≤ h) (h1 : h < n) (hn : n ≤ 1000) :
    incWrap h n = some ((h + 1) % n) := by
  have ha : intResult (h + 1) = some (h + 1) := by
    unfold intResult INT_MIN INT_MAX
    rw [if_pos (by omega)]
  unfold incWrap
  rw [ha, Option.map_some']
  rw [Int.tmod_eq_emod (by omega) (by omega)]

theorem arrayRead_partitions_isSome (i : Int) (h0 : 0 ≤ i) (h1 : i < n_partitions) :
    ∃ p, arrayRead partitions i = some p := by
  rw [n_partitions_eq] at h1
  interval_cases i <;> exact ⟨_, rfl⟩

theorem arrayRead_menu_choices (i : Int) (h0 : 0 ≤ i) (h1 : i < n_menu_choices) :
    ∃ choice, arrayRead menu_choices i = some choice ∧ (choice = "Quit" ↔ i = 0) := by
  rw [n_menu_choices_eq] at h1
  interval_cases i <;> exact ⟨_, rfl, by decide⟩

/-- Every step leaves the table and the two text locals alone. -/
theorem step_frame (tw : Int) (m m' : Machine) (g : Int) (h : step tw m g = some m') :
    m'.vars.partitions = m.vars.partitions ∧ m'.vars.disk = m.vars.disk ∧
      m'.vars.size_info = m.vars.size_info := by
  obtain ⟨pc, v, out⟩ := m
  cases pc <;> simp only [step] at h
  · split at h
    · cases h; exact ⟨rfl, rfl, rfl⟩
    · split at h
      · split at h
        · split at h <;> cases h
          · simp [loopHead_vars]
          · exact ⟨rfl, rfl, rfl⟩
        · cases h
      · cases h; simp [loopHead_vars]
  · cases h; exact ⟨rfl, rfl, rfl⟩
  · split at h
    · simp only [Option.map_eq_some'] at h
      obtain ⟨a, -, rfl⟩ := h
      simp [loopHead_vars]
    · split at h
      · simp only [Option.map_eq_some'] at h
        obtain ⟨a, -, rfl⟩ := h
        simp [loopHead_vars]
      · split at h
        · simp only [Option.map_eq_some'] at h
          obtain ⟨a, -, rfl⟩ := h
          simp [loopHead_vars]
        · split at h
          · simp only [Option.map_eq_some'] at h
            obtain ⟨a, -, rfl⟩ := h
            simp [loopHead_vars]
          · cases h; simp [loopHead_vars]
  · split at h <;> cases h
    · exact ⟨rfl, rfl, rfl⟩
    · simp [loopHead_vars]
  · cases h; exact ⟨rfl, rfl, rfl⟩

/-! ## The step function, case by case -/

theorem step_top_esc (tw : Int) (m : Machine) (g : Int) (hpc : m.pc = .top)
    (hg : toChar g = 27) : step tw m g = some { m with pc := .escSkip } := by
  obtain ⟨pc, v, out⟩ := m
  cases hpc
  simp only [step, hg, if_true]

theorem step_top_other (tw : Int) (m : Machine) (g : Int) (hpc : m.pc = .top)
    (h27 : toChar g ≠ 27) (h10 : toChar g ≠ 10) :
    step tw m g = some (loopHead tw m.vars m.out) := by
  obtain ⟨pc, v, out⟩ := m
  cases hpc
  simp only [step, h27, h10, if_false]

theorem step_top_enter (tw : Int) (m : Machine) (g : Int) (p : Partition) (choice : String)
    (hpc : m.pc = .top) (hg : toChar g = 10)
    (hp : arrayRead m.vars.partitions m.vars.part_highlight = some p)
    (hc : arrayRead menu_choices m.vars.menu_highlight = some choice) :
    step tw m g =
      if choice = "Quit" then
        some (loopHead tw { m.vars with running := 0 }
          (m.out ++ clear_screen ++ "Partition: ".toList ++ p.device.toList ++ ['\n']
            ++ "Action: ".toList ++ choice.toList ++ ['\n', '\n']))
      else
        some { pc := .waitEnter, vars := m.vars,
               out := m.out ++ clear_screen ++ "Partition: ".toList ++ p.device.toList
                 ++ ['\n'] ++ "Action: ".toList ++ choice.toList ++ ['\n', '\n']
                 ++ "Press Enter to return to menu...".toList } := by
  obtain ⟨pc, v, out⟩ := m
  cases hpc
  simp only at hp hc
  have h27 : ¬ ((10 : Int) = 27) := by decide
  simp only [step, hg, h27, if_false, if_true, hp, hc]

theorem step_escSkip (tw : Int) (m : Machine) (g : Int) (hpc : m.pc = .escSkip) :
    step tw m g = some { m with pc := .escDir } := by
  obtain ⟨pc, v, out⟩ := m
  cases hpc
  simp only [step]

theorem step_escDir_up (tw : Int) (m : Machine) (g : Int) (hpc : m.pc = .escDir)
    (hg : toChar g = 65) :
    step tw m g = (decWrap m.vars.part_highlight n_partitions).map fun h =>
      loopHead tw { m.vars with part_highlight := h } m.out := by
  obtain ⟨pc, v, out⟩ := m
  cases hpc
  simp only [step, hg, if_true]

theorem step_escDir_down (tw : Int) (m : Machine) (g : Int) (hpc : m.pc = .escDir)
    (hg : toChar g = 66) :
    step tw m g = (incWrap m.vars.part_highlight n_partitions).map fun h =>
      loopHead tw { m.vars with part_highlight := h } m.out := by
  obtain ⟨pc, v, out⟩ := m
  cases hpc
  have h65 : ¬ ((66 : Int) = 65) := by decide
  simp only [step, h65, hg, if_false, if_true]

theorem step_escDir_right (tw : Int) (m : Machine) (g : Int) (hpc : m.pc = .escDir)
    (hg : toChar g = 67) :
    step tw m g = (incWrap m.vars.menu_highlight n_menu_choices).map fun h =>
      loopHead tw { m.vars with menu_highlight := h } m.out := by
  obtain ⟨pc, v, out⟩ := m
  cases hpc
  have h65 : ¬ ((67 : Int) = 65) := by decide
  have h66 : ¬ ((67 : Int) = 66) := by decide
  simp only [step, h65, h66, hg, if_false, if_true]

theorem step_escDir_left (tw : Int) (m : Machine) (g : Int) (hpc : m.pc = .escDir)
    (hg : toChar g = 68) :
    step tw m g = (decWrap m.vars.menu_highlight n_menu_choices).map fun h =>
      loopHead tw { m.vars with menu_highlight := h } m.out := by
  obtain ⟨pc, v, out⟩ := m
  cases hpc
  have h65 : ¬ ((68 : Int) = 65) := by decide
  have h66 : ¬ ((68 : Int) = 66) := by decide
  have h67 : ¬ ((68 : Int) = 67) := by decide
  simp only [step, h65, h66, h67, hg, if_false, if_true]

theorem step_escDir_other (tw : Int) (m : Machine) (g : Int) (hpc : m.pc = .escDir)
    (h65 : toChar g ≠ 65) (h66 : toChar g ≠ 66) (h67 : toChar g ≠ 67)
    (h68 : toChar g ≠ 68) : step tw m g = some (loopHead tw m.vars m.out) := by
  obtain ⟨pc, v, out⟩ := m
  cases hpc
  simp only [step, h65, h66, h67, h68, if_false]

theorem step_waitEnter_other (tw : Int) (m : Machine) (g : Int) (hpc : m.pc = .waitEnter)
    (hg : g ≠ 10) : step tw m g = some m := by
  obtain ⟨pc, v, out⟩ := m
  cases hpc
  simp only [step, hg, ne_eq, not_false_eq_true, if_true]

theorem step_waitEnter_enter (tw : Int) (m : Machine) (hpc : m.pc = .waitEnter) :
    step tw m 10 = some (loopHead tw m.vars m.out) := by
  obtain ⟨pc, v, out⟩ := m
  cases hpc
  simp only [step, ne_eq, not_true_eq_false, if_false]

theorem step_exited (tw : Int) (m : Machine) (g : Int) (hpc : m.pc = .exited) :
    step tw m g = some m := by
  obtain ⟨pc, v, out⟩ := m
  cases hpc
  simp only [step]

theorem exec_append (tw : Int) (m : Machine) (ks ls : List Int) :
    exec tw m (ks ++ ls) = (exec tw m ks).bind fun m' => exec tw m' ls := by
  induction ks generalizing m with
  | nil => simp [exec]
  | cons k ks ih =>
    simp only [List.cons_append, exec]
    cases step tw m k with
    | none => simp
    | some m1 => simpa using ih m1

/-! ## The invariant -/

theorem inv_loopHead (tw : Int) (v : Vars) (out : List Char)
    (hparts : v.partitions = partitions) (hdisk : v.disk = disk)
    (hsize : v.size_info = size_info) (hr : InRange v)
    (hrun : v.running = 1 ∨ v.running = 0) : Inv (loopHead tw v out) := by
  refine ⟨?_, ?_, ?_, ?_, ?_⟩
  · rw [loopHead_vars]; exact hparts
  · rw [loopHead_vars]; exact hdisk
  · rw [loopHead_vars]; exact hsize
  · rw [loopHead_vars]; exact hr
  · rw [loopHead_vars]
    rcases hrun with h1 | h0
    · refine Or.inl ⟨h1, ?_⟩
      rw [loopHead_pc_running tw v out (by rw [h1]; decide)]
      decide
    · exact Or.inr ⟨h0, loopHead_pc_stopped tw v out h0⟩

theorem inv_init (tw : Int) : Inv (init tw) :=
  inv_loopHead tw initVars hide_cursor rfl rfl rfl (by decide) (Or.inl rfl)

theorem decWrap_range (h n : Int) (h0 : 0 ≤ h) (h1 : h < n) :
    0 ≤ (h - 1 + n) % n ∧ (h - 1 + n) % n < n :=
  ⟨Int.emod_nonneg _ (by omega), Int.emod_lt_of_pos _ (by omega)⟩

theorem incWrap_range (h n : Int) (h0 : 0 ≤ h) (h1 : h < n) :
    0 ≤ (h + 1) % n ∧ (h + 1) % n < n :=
  ⟨Int.emod_nonneg _ (by omega), Int.emod_lt_of_pos _ (by omega)⟩

/-- From a configuration that satisfies the invariant every step is defined and leads to
a configuration that satisfies it. -/
theorem step_inv (tw : Int) (m : Machine) (g : Int) (h : Inv m) :
    ∃ m', step tw m g = some m' ∧ Inv m' := by
  obtain ⟨hparts, hdisk, hsize, hr, hrun⟩ := h
  obtain ⟨hp0, hp1, hm0, hm1⟩ := hr
  have hnp : n_partitions ≤ 1000 := by decide
  have hnm : n_menu_choices ≤ 1000 := by decide
  cases hpc : m.pc with
  | top =>
    have hrun1 : m.vars.running = 1 := by
      rcases hrun with ⟨h1, _⟩ | ⟨_, h2⟩
      · exact h1
      · rw [hpc] at h2; cases h2
    by_cases h27 : toChar g = 27
    · refine ⟨_, step_top_esc tw m g hpc h27, hparts, hdisk, hsize, ⟨hp0, hp1, hm0, hm1⟩,
        Or.inl ⟨hrun1, fun hx => Pc.noConfusion hx⟩⟩
    · by_cases h10 : toChar g = 10
      · obtain ⟨p, hp⟩ := arrayRead_partitions_isSome _ hp0 hp1
        obtain ⟨choice, hc, -⟩ := arrayRead_menu_choices _ hm0 hm1
        rw [← hparts] at hp
        rw [step_top_enter tw m g p choice hpc h10 hp hc]
        by_cases hq : choice = "Quit"
        · rw [if_pos hq]
          exact ⟨_, rfl, inv_loopHead tw _ _ hparts hdisk hsize ⟨hp0, hp1, hm0, hm1⟩
            (Or.inr rfl)⟩
        · rw [if_neg hq]
          exact ⟨_, rfl, hparts, hdisk, hsize, ⟨hp0, hp1, hm0, hm1⟩,
            Or.inl ⟨hrun1, fun hx => Pc.noConfusion hx⟩⟩
      · exact ⟨_, step_top_other tw m g hpc h27 h10,
          inv_loopHead tw _ _ hparts hdisk hsize ⟨hp0, hp1, hm0, hm1⟩ (Or.inl hrun1)⟩
  | escSkip =>
    have hrun1 : m.vars.running = 1 := by
      rcases hrun with ⟨h1, _⟩ | ⟨_, h2⟩
      · exact h1
      · rw [hpc] at h2; cases h2
    exact ⟨_, step_escSkip tw m g hpc, hparts, hdisk, hsize, ⟨hp0, hp1, hm0, hm1⟩,
      Or.inl ⟨hrun1, fun hx => Pc.noConfusion hx⟩⟩
  | escDir =>
    have hrun1 : m.vars.running = 1 := by
      rcases hrun with ⟨h1, _⟩ | ⟨_, h2⟩
      · exact h1
      · rw [hpc] at h2; cases h2
    by_cases h65 : toChar g = 65
    · rw [step_escDir_up tw m g hpc h65, decWrap_in_range _ _ hp0 hp1 hnp, Option.map_some']
      obtain ⟨ha, hb⟩ := decWrap_range _ _ hp0 hp1
      exact ⟨_, rfl, inv_loopHead tw _ _ hparts hdisk hsize ⟨ha, hb, hm0, hm1⟩ (Or.inl hrun1)⟩
    · by_cases h66 : toChar g = 66
      · rw [step_escDir_down tw m g hpc h66, incWrap_in_range _ _ hp0 hp1 hnp,
          Option.map_some']
        obtain ⟨ha, hb⟩ := incWrap_range _ _ hp0 hp1
        exact ⟨_, rfl,
          inv_loopHead tw _ _ hparts hdisk hsize ⟨ha, hb, hm0, hm1⟩ (Or.inl hrun1)⟩
      · by_cases h67 : toChar g = 67
        · rw [step_escDir_right tw m g hpc h67, incWrap_in_range _ _ hm0 hm1 hnm,
            Option.map_some']
          obtain ⟨ha, hb⟩ := incWrap_range _ _ hm0 hm1
          exact ⟨_, rfl,
            inv_loopHead tw _ _ hparts hdisk hsize ⟨hp0, hp1, ha, hb⟩ (Or.inl hrun1)⟩
        · by_cases h68 : toChar g = 68
          · rw [step_escDir_left tw m g hpc h68, decWrap_in_range _ _ hm0 hm1 hnm,
              Option.map_some']
            obtain ⟨ha, hb⟩ := decWrap_range _ _ hm0 hm1
            exact ⟨_, rfl,
              inv_loopHead tw _ _ hparts hdisk hsize ⟨hp0, hp1, ha, hb⟩ (Or.inl hrun1)⟩
          · exact ⟨_, step_escDir_other tw m g hpc h65 h66 h67 h68,
              inv_loopHead tw _ _ hparts hdisk hsize ⟨hp0, hp1, hm0, hm1⟩ (Or.inl hrun1)⟩
  | waitEnter =>
    have hrun1 : m.vars.running = 1 := by
      rcases hrun with ⟨h1, _⟩ | ⟨_, h2⟩
      · exact h1
      · rw [hpc] at h2; cases h2
    by_cases h10 : g = 10
    · subst h10
      exact ⟨_, step_waitEnter_enter tw m hpc,
        inv_loopHead tw _ _ hparts hdisk hsize ⟨hp0, hp1, hm0, hm1⟩ (Or.inl hrun1)⟩
    · exact ⟨_, step_waitEnter_other tw m g hpc h10, hparts, hdisk, hsize,
        ⟨hp0, hp1, hm0, hm1⟩, hrun⟩
  | exited =>
    exact ⟨_, step_exited tw m g hpc, hparts, hdisk, hsize, ⟨hp0, hp1, hm0, hm1⟩, hrun⟩

/-- From a configuration that satisfies the invariant every input is processed without
undefined behaviour, and the invariant holds afterwards. -/
theorem exec_inv (tw : Int) (keys : List Int) (m : Machine) (h : Inv m) :
    ∃ m', exec tw m keys = some m' ∧ Inv m' := by
  induction keys generalizing m with
  | nil => exact ⟨m, rfl, h⟩
  | cons k ks ih =>
    obtain ⟨m1, h1, hinv1⟩ := step_inv tw m k h
    obtain ⟨m2, h2, hinv2⟩ := ih m1 hinv1
    refine ⟨m2, ?_, hinv2⟩
    simp only [exec, h1, Option.some_bind, h2]

/-! ## Highlight marks in the rendering -/

theorem occursIn_reverseVideo_pad (n : Nat) (text : List Char) :
    occursIn reverseVideo (List.replicate n ' ' ++ text) = occursIn reverseVideo text := by
  induction n with
  | zero => rfl
  | succ k ih =>
    have hp : reverseVideo.isPrefixOf (' ' :: (List.replicate k ' ' ++ text)) = false := by
      simp [reverseVideo, List.isPrefixOf]
    rw [List.replicate_succ, List.cons_append, occursIn, hp, Bool.false_or, ih]

theorem isHighlighted_partitionLine (padding : Nat) (h : Int) (i : Nat) (p : Partition) :
    isHighlighted (partitionLine padding h i p) = isHighlighted (partitionLine 0 h i p) := by
  unfold isHighlighted partitionLine
  simp only [List.append_assoc, occursIn_reverseVideo_pad]

theorem countP_partitionLines (padding : Nat) (h : Int) (table : List Partition) :
    (partitionLines padding h table).countP isHighlighted
      = (partitionLines 0 h table).countP isHighlighted := by
  unfold partitionLines
  rw [List.countP_map, List.countP_map]
  congr 1
  funext ip
  exact isHighlighted_partitionLine padding h ip.1 ip.2

theorem one_partition_line_highlighted (padding : Nat) (h : Int) (h0 : 0 ≤ h)
    (h1 : h < n_partitions) :
    (partitionLines padding h partitions).countP isHighlighted = 1 := by
  rw [countP_partitionLines, n_partitions_eq] at *
  interval_cases h <;> decide

theorem one_menu_item_highlighted (h : Int) (h0 : 0 ≤ h) (h1 : h < n_menu_choices) :
    (menuItems h).countP isHighlighted = 1 := by
  rw [n_menu_choices_eq] at h1
  interval_cases h <;> decide

/-! ## Arrow keys from the top of the loop -/

theorem toChar_27 : toChar 27 = 27 := by decide

theorem toChar_65 : toChar 65 = 65 := by decide

theorem toChar_66 : toChar 66 = 66 := by decide

theorem toChar_67 : toChar 67 = 67 := by decide

theorem toChar_68 : toChar 68 = 68 := by decide

theorem exec_then (tw : Int) (m m1 m2 : Machine) (ks ls : List Int)
    (h1 : exec tw m ks = some m1) (h2 : exec tw m1 ls = some m2) :
    exec tw m (ks ++ ls) = some m2 := by
  rw [exec_append, h1]
  exact h2

/-- `ESC`, any byte, `'A'`. -/
theorem exec_up (tw : Int) (m : Machine) (b : Int) (hpc : m.pc = .top)
    (hrun : m.vars.running ≠ 0) (hr : InRange m.vars) :
    ∃ m', exec tw m [27, b, 65] = some m' ∧ m'.pc = .top ∧
      m'.vars = { m.vars with
        part_highlight := (m.vars.part_highlight - 1 + n_partitions) % n_partitions } ∧
      m'.vars.running ≠ 0 ∧ InRange m'.vars := by
  obtain ⟨hp0, hp1, hm0, hm1⟩ := hr
  have h1 := step_top_esc tw m 27 hpc toChar_27
  have h2 := step_escSkip tw { m with pc := .escSkip } b rfl
  have h3 := step_escDir_up tw { m with pc := .escDir } 65 rfl toChar_65
  rw [decWrap_in_range _ _ hp0 hp1 (by decide), Option.map_some'] at h3
  obtain ⟨ha, hb⟩ := decWrap_range _ _ hp0 hp1
  refine ⟨loopHead tw { m.vars with
    part_highlight := (m.vars.part_highlight - 1 + n_partitions) % n_partitions } m.out, ?_, loopHead_pc_running tw _ _ hrun,
    loopHead_vars tw _ _, ?_, ?_⟩
  · simp only [exec, h1, h2, h3, Option.some_bind]
  · rw [loopHead_vars]; exact hrun
  · rw [loopHead_vars]; exact ⟨ha, hb, hm0, hm1⟩

/-- `ESC`, any byte, `'B'`. -/
theorem exec_down (tw : Int) (m : Machine) (b : Int) (hpc : m.pc = .top)
    (hrun : m.vars.running ≠ 0) (hr : InRange m.vars) :
    ∃ m', exec tw m [27, b, 66] = some m' ∧ m'.pc = .top ∧
      m'.vars = { m.vars with
        part_highlight := (m.vars.part_highlight + 1) % n_partitions } ∧
      m'.vars.running ≠ 0 ∧ InRange m'.vars := by
  obtain ⟨hp0, hp1, hm0, hm1⟩ := hr
  have h1 := step_top_esc tw m 27 hpc toChar_27
  have h2 := step_escSkip tw { m with pc := .escSkip } b rfl
  have h3 := step_escDir_down tw { m with pc := .escDir } 66 rfl toChar_66
  rw [incWrap_in_range _ _ hp0 hp1 (by decide), Option.map_some'] at h3
  obtain ⟨ha, hb⟩ := incWrap_range _ _ hp0 hp1
  refine ⟨loopHead tw { m.vars with
    part_highlight := (m.vars.part_highlight + 1) % n_partitions } m.out, ?_, loopHead_pc_running tw _ _ hrun,
    loopHead_vars tw _ _, ?_, ?_⟩
  · simp only [exec, h1, h2, h3, Option.some_bind]
  · rw [loopHead_vars]; exact hrun
  · rw [loopHead_vars]; exact ⟨ha, hb, hm0, hm1⟩

/-- `ESC`, any byte, `'C'`. -/
theorem exec_right (tw : Int) (m : Machine) (b : Int) (hpc : m.pc = .top)
    (hrun : m.vars.running ≠ 0) (hr : InRange m.vars) :
    ∃ m', exec tw m [27, b, 67] = some m' ∧ m'.pc = .top ∧
      m'.vars = { m.vars with
        menu_highlight := (m.vars.menu_highlight + 1) % n_menu_choices } ∧
      m'.vars.running ≠ 0 ∧ InRange m'.vars := by
  obtain ⟨hp0, hp1, hm0, hm1⟩ := hr
  have h1 := step_top_esc tw m 27 hpc toChar_27
  have h2 := step_escSkip tw { m with pc := .escSkip } b rfl
  have h3 := step_escDir_right tw { m with pc := .escDir } 67 rfl toChar_67
  rw [incWrap_in_range _ _ hm0 hm1 (by decide), Option.map_some'] at h3
  obtain ⟨ha, hb⟩ := incWrap_range _ _ hm0 hm1
  refine ⟨loopHead tw { m.vars with
    menu_highlight := (m.vars.menu_highlight + 1) % n_menu_choices } m.out, ?_, loopHead_pc_running tw _ _ hrun,
    loopHead_vars tw _ _, ?_, ?_⟩
  · simp only [exec, h1, h2, h3, Option.some_bind]
  · rw [loopHead_vars]; exact hrun
  · rw [loopHead_vars]; exact ⟨hp0, hp1, ha, hb⟩

/-- `ESC`, any byte, `'D'`. -/
theorem exec_left (tw : Int) (m : Machine) (b : Int) (hpc : m.pc = .top)
    (hrun : m.vars.running ≠ 0) (hr : InRange m.vars) :
    ∃ m', exec tw m [27, b, 68] = some m' ∧ m'.pc = .top ∧
      m'.vars = { m.vars with
        menu_highlight := (m.vars.menu_highlight - 1 + n_menu_choices) % n_menu_choices } ∧
      m'.vars.running ≠ 0 ∧ InRange m'.vars := by
  obtain ⟨hp0, hp1, hm0, hm1⟩ := hr
  have h1 := step_top_esc tw m 27 hpc toChar_27
  have h2 := step_escSkip tw { m with pc := .escSkip } b rfl
  have h3 := step_escDir_left tw { m with pc := .escDir } 68 rfl toChar_68
  rw [decWrap_in_range _ _ hm0 hm1 (by decide), Option.map_some'] at h3
  obtain ⟨ha, hb⟩ := decWrap_range _ _ hm0 hm1
  refine ⟨loopHead tw { m.vars with
    menu_highlight := (m.vars.menu_highlight - 1 + n_menu_choices) % n_menu_choices } m.out, ?_, loopHead_pc_running tw _ _ hrun,
    loopHead_vars tw _ _, ?_, ?_⟩
  · simp only [exec, h1, h2, h3, Option.some_bind]
  · rw [loopHead_vars]; exact hrun
  · rw [loopHead_vars]; exact ⟨hp0, hp1, ha, hb⟩

/-- `ESC`, any byte, and a third value that is none of `'A'`, `'B'`, `'C'`, `'D'`. -/
theorem exec_esc_other (tw : Int) (m : Machine) (b d : Int) (hpc : m.pc = .top)
    (hrun : m.vars.running ≠ 0) (hd0 : -1 ≤ d) (hd1 : d ≤ 255)
    (h65 : d ≠ 65) (h66 : d ≠ 66) (h67 : d ≠ 67) (h68 : d ≠ 68) :
    ∃ m', exec tw m [27, b, d] = some m' ∧ m'.pc = .top ∧ m'.vars = m.vars := by
  have h1 := step_top_esc tw m 27 hpc toChar_27
  have h2 := step_escSkip tw { m with pc := .escSkip } b rfl
  have h3 := step_escDir_other tw { m with pc := .escDir } d rfl
    (fun h => h65 ((toChar_eq_iff d 65 hd0 hd1 (by decide) (by decide)).1 h))
    (fun h => h66 ((toChar_eq_iff d 66 hd0 hd1 (by decide) (by decide)).1 h))
    (fun h => h67 ((toChar_eq_iff d 67 hd0 hd1 (by decide) (by decide)).1 h))
    (fun h => h68 ((toChar_eq_iff d 68 hd0 hd1 (by decide) (by decide)).1 h))
  refine ⟨loopHead tw m.vars m.out, ?_, loopHead_pc_running tw _ _ hrun,
    loopHead_vars tw _ _⟩
  simp only [exec, h1, h2, h3, Option.some_bind]

/-- A value at the top of the loop that is neither `ESC` nor newline. -/
theorem exec_plain_key (tw : Int) (m : Machine) (c : Int) (hpc : m.pc = .top)
    (hrun : m.vars.running ≠ 0) (hc0 : -1 ≤ c) (hc1 : c ≤ 255)
    (h27 : c ≠ 27) (h10 : c ≠ 10) :
    ∃ m', exec tw m [c] = some m' ∧ m'.pc = .top ∧ m'.vars = m.vars := by
  have h1 := step_top_other tw m c hpc
    (fun h => h27 ((toChar_eq_iff c 27 hc0 hc1 (by decide) (by decide)).1 h))
    (fun h => h10 ((toChar_eq_iff c 10 hc0 hc1 (by decide) (by decide)).1 h))
  refine ⟨loopHead tw m.vars m.out, ?_, loopHead_pc_running tw _ _ hrun,
    loopHead_vars tw _ _⟩
  simp only [exec, h1, Option.some_bind]

/-! ## Enter and the wait for the second Enter -/

theorem toChar_10 : toChar 10 = 10 := by decide

theorem arrayRead_of_length {α : Type} (arr : List α) (i : Int) (h0 : 0 ≤ i)
    (h1 : i < arr.length) : ∃ a, arrayRead arr i = some a := by
  have hlt : i.toNat < arr.length := by omega
  refine ⟨arr[i.toNat], ?_⟩
  unfold arrayRead
  rw [if_pos h0, List.getElem?_eq_getElem hlt]

theorem exec_waitEnter_junk (tw : Int) (m : Machine) (junk : List Int)
    (hpc : m.pc = .waitEnter) (hj : ∀ g ∈ junk, g ≠ 10) : exec tw m junk = some m := by
  induction junk with
  | nil => rfl
  | cons k ks ih =>
    have hk : k ≠ 10 := hj k (List.mem_cons_self _ _)
    have hks : ∀ g ∈ ks, g ≠ 10 := fun g hg => hj g (List.mem_cons_of_mem _ hg)
    simp only [exec, step_waitEnter_other tw m k hpc hk, Option.some_bind]
    exact ih hks

/-- A step changes `running` only when it is the newline read at the top of the loop with
`Quit` selected, and then it sets `running` to `0`. -/
theorem step_running (tw : Int) (m m' : Machine) (g : Int) (h : step tw m g = some m') :
    m'.vars.running = m.vars.running ∨
      (m.pc = .top ∧ toChar g = 10 ∧ m'.vars.running = 0 ∧
        arrayRead menu_choices m.vars.menu_highlight = some "Quit") := by
  obtain ⟨pc, v, out⟩ := m
  cases pc <;> simp only [step] at h
  · split at h
    · cases h; exact Or.inl rfl
    · split at h
      · rename_i h10
        split at h
        · rename_i p choice hp hc
          split at h <;> cases h
          · rename_i hq
            subst hq
            exact Or.inr ⟨rfl, h10, by rw [loopHead_vars], hc⟩
          · exact Or.inl rfl
        · cases h
      · cases h; exact Or.inl (by rw [loopHead_vars])
  · cases h; exact Or.inl rfl
  · split at h
    · simp only [Option.map_eq_some'] at h
      obtain ⟨a, -, rfl⟩ := h
      exact Or.inl (by rw [loopHead_vars])
    · split at h
      · simp only [Option.map_eq_some'] at h
        obtain ⟨a, -, rfl⟩ := h
        exact Or.inl (by rw [loopHead_vars])
      · split at h
        · simp only [Option.map_eq_some'] at h
          obtain ⟨a, -, rfl⟩ := h
          exact Or.inl (by rw [loopHead_vars])
        · split at h
          · simp only [Option.map_eq_some'] at h
            obtain ⟨a, -, rfl⟩ := h
            exact Or.inl (by rw [loopHead_vars])
          · cases h; exact Or.inl (by rw [loopHead_vars])
  · split at h <;> cases h
    · exact Or.inl rfl
    · exact Or.inl (by rw [loopHead_vars])
  · cases h; exact Or.inl rfl

/-! ## The frame on the screen -/

theorem frameShown_loopHead (tw : Int) (v : Vars) (out : List Char) :
    FrameShown tw (loopHead tw v out) := by
  unfold FrameShown loopHead
  by_cases h : v.running ≠ 0
  · rw [if_pos h]
    exact Or.inr (Or.inr ⟨out, rfl⟩)
  · rw [if_neg h]
    exact Or.inr (Or.inl rfl)

/-- Every step keeps the last frame on the screen in step with the variables. -/
theorem step_frameShown (tw : Int) (m m' : Machine) (g : Int) (hf : FrameShown tw m)
    (h : step tw m g = some m') : FrameShown tw m' := by
  obtain ⟨pc, v, out⟩ := m
  cases pc <;> simp only [step] at h
  · split at h
    · cases h
      rcases hf with hx | hx | hx
      · cases hx
      · cases hx
      · exact Or.inr (Or.inr hx)
    · split at h
      · split at h
        · split at h <;> cases h
          · exact frameShown_loopHead tw _ _
          · exact Or.inl rfl
        · cases h
      · cases h; exact frameShown_loopHead tw _ _
  · cases h
    rcases hf with hx | hx | hx
    · cases hx
    · cases hx
    · exact Or.inr (Or.inr hx)
  · split at h
    · simp only [Option.map_eq_some'] at h
      obtain ⟨a, -, rfl⟩ := h
      exact frameShown_loopHead tw _ _
    · split at h
      · simp only [Option.map_eq_some'] at h
        obtain ⟨a, -, rfl⟩ := h
        exact frameShown_loopHead tw _ _
      · split at h
        · simp only [Option.map_eq_some'] at h
          obtain ⟨a, -, rfl⟩ := h
          exact frameShown_loopHead tw _ _
        · split at h
          · simp only [Option.map_eq_some'] at h
            obtain ⟨a, -, rfl⟩ := h
            exact frameShown_loopHead tw _ _
          · cases h; exact frameShown_loopHead tw _ _
  · split at h <;> cases h
    · exact Or.inl rfl
    · exact frameShown_loopHead tw _ _
  · cases h; exact Or.inr (Or.inl rfl)

theorem exec_frameShown (tw : Int) (keys : List Int) (m m' : Machine)
    (hf : FrameShown tw m) (h : exec tw m keys = some m') : FrameShown tw m' := by
  induction keys generalizing m with
  | nil =>
    simp only [exec, Option.some.injEq] at h
    subst h
    exact hf
  | cons k ks ih =>
    simp only [exec] at h
    cases hs : step tw m k with
    | none => rw [hs] at h; cases h
    | some m1 =>
      rw [hs, Option.some_bind] at h
      exact ih m1 (step_frameShown tw m m1 k hf hs) h

/-! ## The lines of a frame -/

theorem splitLines_ne_nil (t : List Char) : ∃ l ls, splitLines t = l :: ls := by
  induction t with
  | nil => exact ⟨[], [], rfl⟩
  | cons c cs ih =>
    obtain ⟨l, ls, h⟩ := ih
    by_cases hc : c = '\n'
    · exact ⟨[], l :: ls, by simp only [splitLines, h, hc, if_true]⟩
    · exact ⟨c :: l, ls, by simp only [splitLines, h, hc, if_false]⟩

theorem splitLines_newline (t : List Char) : splitLines ('\n' :: t) = [] :: splitLines t := by
  obtain ⟨l, ls, h⟩ := splitLines_ne_nil t
  simp only [splitLines, h, if_true]

/-- A run of characters without newline, followed by a newline, is one line. -/
theorem splitLines_line (s t : List Char) (hs : '\n' ∉ s) :
    splitLines (s ++ '\n' :: t) = s :: splitLines t := by
  induction s with
  | nil => exact splitLines_newline t
  | cons c cs ih =>
    have hc : ¬ c = '\n' := fun h => hs (by rw [h]; exact List.mem_cons_self _ _)
    have hcs : '\n' ∉ cs := fun h => hs (List.mem_cons_of_mem _ h)
    have ih' := ih hcs
    show splitLines (c :: (cs ++ '\n' :: t)) = (c :: cs) :: splitLines t
    simp only [splitLines, ih', hc, if_false]

/-- Lines that each end in a newline are split into themselves. -/
theorem splitLines_lines (bodies : List (List Char)) (rest : List Char)
    (hb : ∀ b ∈ bodies, '\n' ∉ b) :
    splitLines ((bodies.map fun b => b ++ ['\n']).flatten ++ rest)
      = bodies ++ splitLines rest := by
  induction bodies with
  | nil => rfl
  | cons b bs ih =>
    have h1 : '\n' ∉ b := hb b (List.mem_cons_self _ _)
    have h2 : ∀ x ∈ bs, '\n' ∉ x := fun x hx => hb x (List.mem_cons_of_mem _ hx)
    simp only [List.map_cons, List.flatten_cons, List.append_assoc, List.singleton_append,
      List.cons_append, List.nil_append]
    rw [splitLines_line b _ h1, ih h2]

theorem partitionLines_eq_bodies (padding : Nat) (h : Int) (table : List Partition) :
    partitionLines padding h table
      = (partitionBodies padding h table).map fun b => b ++ ['\n'] := by
  unfold partitionLines partitionBodies
  rw [List.map_map]
  apply List.map_congr_left
  intro ip _
  simp only [Function.comp, partitionLine, partitionBody, List.append_assoc]

/-- The lines of a frame, when no text printed in it contains a newline. -/
theorem splitLines_show_diskman (tw : Int) (table : List Partition) (ph mh : Int)
    (d s : String) (hd : '\n' ∉ snprintf 128 ("Disk: ".toList ++ d.toList))
    (hs : '\n' ∉ s.toList)
    (hrows : ∀ b ∈ partitionBodies (centrePadding tw table_width) ph table, '\n' ∉ b)
    (hmenu : '\n' ∉ menu_line mh) :
    splitLines (show_diskman tw table ph mh d s) =
      [ clear_screen ++ (List.replicate (centrePadding tw
            (snprintf 128 ("Disk: ".toList ++ d.toList)).length) ' '
          ++ snprintf 128 ("Disk: ".toList ++ d.toList)),
        List.replicate (centrePadding tw s.toList.length) ' ' ++ s.toList,
        [],
        List.replicate (centrePadding tw table_width) ' ' ++ headerLine ]
      ++ (partitionBodies (centrePadding tw table_width) ph table
      ++ [ [], List.replicate (centrePadding tw (menu_line mh).length) ' ' ++ menu_line mh,
           [] ]) := by
  have hclear : '\n' ∉ clear_screen := by decide
  have hhead : '\n' ∉ headerLine := by decide
  have hsp : ∀ n : Nat, '\n' ∉ List.replicate n ' ' := by
    intro n h
    exact absurd (List.eq_of_mem_replicate h) (by decide)
  have h0 : '\n' ∉ clear_screen ++ (List.replicate (centrePadding tw
      (snprintf 128 ("Disk: ".toList ++ d.toList)).length) ' '
      ++ snprintf 128 ("Disk: ".toList ++ d.toList)) := by
    simp only [List.mem_append, not_or]
    exact ⟨hclear, hsp _, hd⟩
  have h1 : '\n' ∉ List.replicate (centrePadding tw s.toList.length) ' ' ++ s.toList := by
    simp only [List.mem_append, not_or]
    exact ⟨hsp _, hs⟩
  have h3 : '\n' ∉ List.replicate (centrePadding tw table_width) ' ' ++ headerLine := by
    simp only [List.mem_append, not_or]
    exact ⟨hsp _, hhead⟩
  have h8 : '\n' ∉ List.replicate (centrePadding tw (menu_line mh).length) ' '
      ++ menu_line mh := by
    simp only [List.mem_append, not_or]
    exact ⟨hsp _, hmenu⟩
  have hshape : show_diskman tw table ph mh d s =
      (clear_screen ++ (List.replicate (centrePadding tw
            (snprintf 128 ("Disk: ".toList ++ d.toList)).length) ' '
          ++ snprintf 128 ("Disk: ".toList ++ d.toList))) ++ '\n' ::
      ((List.replicate (centrePadding tw s.toList.length) ' ' ++ s.toList) ++ '\n' ::
      ('\n' ::
      ((List.replicate (centrePadding tw table_width) ' ' ++ headerLine) ++ '\n' ::
      (((partitionBodies (centrePadding tw table_width) ph table).map
          fun b => b ++ ['\n']).flatten ++
      ('\n' ::
      ((List.replicate (centrePadding tw (menu_line mh).length) ' ' ++ menu_line mh)
        ++ '\n' :: [])))))) := by
    simp only [show_diskman, print_centered, partitionLines_eq_bodies, List.append_assoc,
      List.singleton_append, List.cons_append, List.nil_append]
  rw [hshape, splitLines_line _ _ h0, splitLines_line _ _ h1, splitLines_newline,
    splitLines_line _ _ h3, splitLines_lines _ _ hrows, splitLines_newline,
    splitLines_line _ _ h8]
  rfl

theorem dropPad_replicate (n : Nat) (t : List Char) :
    dropPad (List.replicate n ' ' ++ t) = dropPad t := by
  induction n with
  | zero => rfl
  | succ k ih =>
    rw [List.replicate_succ, List.cons_append]
    unfold dropPad at ih ⊢
    rw [List.dropWhile_cons_of_pos (by decide)]
    exact ih

theorem map_dropPad_partitionBodies (padding : Nat) (h : Int) (table : List Partition) :
    (partitionBodies padding h table).map dropPad
      = (partitionBodies 0 h table).map dropPad := by
  unfold partitionBodies
  rw [List.map_map, List.map_map]
  apply List.map_congr_left
  intro ip _
  simp only [Function.comp, partitionBody, dropPad_replicate]

theorem newline_not_mem_partitionBodies (padding : Nat) (h : Int) :
    ∀ b ∈ partitionBodies padding h partitions, '\n' ∉ b := by
  have hrow : ∀ ip ∈ partitions.enum, '\n' ∉ rowText ip.2 := by decide
  have hsp : '\n' ∉ List.replicate padding ' ' := by
    intro hx
    exact absurd (List.eq_of_mem_replicate hx) (by decide)
  intro b hb
  unfold partitionBodies at hb
  rw [List.mem_map] at hb
  obtain ⟨ip, hip, rfl⟩ := hb
  unfold partitionBody
  simp only [List.mem_append, not_or]
  refine ⟨hsp, ?_, hrow ip hip, ?_⟩
  · split <;> decide
  · split <;> decide

/-- What a frame shows, read off the characters `show_diskman` prints for the hardcoded
table and in-range highlights: ten lines; the three partition rows, of which the one at
`part_highlight` is wrapped in reverse video; the four menu items, of which the one at
`menu_highlight` is wrapped in reverse video inside its brackets. -/
theorem frame_observed (tw ph mh : Int) (h0 : 0 ≤ ph) (h1 : ph < n_partitions)
    (hm0 : 0 ≤ mh) (hm1 : mh < n_menu_choices) :
    (splitLines (show_diskman tw partitions ph mh disk size_info)).length = 10 ∧
    shownRows (show_diskman tw partitions ph mh disk size_info) =
      (partitions.enum.map fun ip =>
        if (ip.1 : Int) = ph then reverseVideo ++ rowText ip.2 ++ resetVideo
        else rowText ip.2) ∧
    shownMenuWords (show_diskman tw partitions ph mh disk size_info) =
      (menu_choices.enum.map fun ic =>
        if (ic.1 : Int) = mh then ['['] ++ reverseVideo ++ ic.2.toList ++ resetVideo ++ [']']
        else ['['] ++ ic.2.toList ++ [']']) ++ [[]] := by
  rw [n_partitions_eq] at h1
  rw [n_menu_choices_eq] at hm1
  have hmenu : '\n' ∉ menu_line mh := by
    interval_cases mh <;> decide
  have hsplit := splitLines_show_diskman tw partitions ph mh disk size_info (by decide)
    (by decide) (newline_not_mem_partitionBodies _ ph) hmenu
  have hlen : (partitionBodies (centrePadding tw table_width) ph partitions).length = 3 :=
    rfl
  refine ⟨?_, ?_, ?_⟩
  · rw [hsplit]
    simp only [List.length_append, hlen, List.length_cons, List.length_nil]
  · unfold shownRows
    rw [hsplit]
    have h3 : n_partitions.toNat = 3 := by decide
    rw [h3]
    simp only [List.cons_append, List.nil_append, List.drop_succ_cons, List.drop_zero]
    rw [List.take_left' hlen, map_dropPad_partitionBodies]
    interval_cases ph <;> decide
  · unfold shownMenuWords
    rw [hsplit]
    obtain ⟨b0, b1, b2, hb⟩ : ∃ b0 b1 b2,
        partitionBodies (centrePadding tw table_width) ph partitions = [b0, b1, b2] :=
      ⟨_, _, _, rfl⟩
    rw [hb]
    have h9 : 4 + n_partitions.toNat + 1 = 8 := by decide
    rw [h9]
    simp only [List.cons_append, List.nil_append, List.getD_cons_succ, List.getD_cons_zero]
    rw [dropPad_replicate]
    interval_cases mh <;> decide

theorem one_row_marked (tw ph mh : Int) (h0 : 0 ≤ ph) (h1 : ph < n_partitions)
    (hm0 : 0 ≤ mh) (hm1 : mh < n_menu_choices) :
    (shownRows (show_diskman tw partitions ph mh disk size_info)).countP isMarked = 1 ∧
    (shownRows (show_diskman tw partitions ph mh disk size_info)).countP hasEscape = 1 := by
  rw [(frame_observed tw ph mh h0 h1 hm0 hm1).2.1]
  rw [n_partitions_eq] at h1
  interval_cases ph <;> decide

theorem one_item_marked (tw ph mh : Int) (h0 : 0 ≤ ph) (h1 : ph < n_partitions)
    (hm0 : 0 ≤ mh) (hm1 : mh < n_menu_choices) :
    (shownMenuWords (show_diskman tw partitions ph mh disk size_info)).countP
      isMarkedItem = 1 ∧
    (shownMenuWords (show_diskman tw partitions ph mh disk size_info)).countP
      hasEscape = 1 := by
  rw [(frame_observed tw ph mh h0 h1 hm0 hm1).2.2]
  rw [n_menu_choices_eq] at hm1
  interval_cases mh <;> decide

/-! ## The claims -/

/-- C1: whatever values the `getchar()` calls of the loop return, in whatever number, the
program processes them without undefined behaviour and the global partition table then
equals the three hardcoded entries; of the variables in scope only `part_highlight`,
`menu_highlight` and `running` can differ from their initial values. -/
theorem C1_partition_table_unchanged (tw : Int) (keys : List Int) :
    ∃ m, exec tw (init tw) keys = some m ∧
      m.vars.partitions = partitions ∧ partitions.length = 3 ∧
      m.vars = { initVars with
        part_highlight := m.vars.part_highlight,
        menu_highlight := m.vars.menu_highlight,
        running := m.vars.running } := by
  obtain ⟨m, hm, hparts, hdisk, hsize, -, -⟩ := exec_inv tw keys (init tw) (inv_init tw)
  refine ⟨m, hm, hparts, rfl, ?_⟩
  obtain ⟨pc, ⟨parts, dk, si, ph, mh, run⟩, out⟩ := m
  simp only at hparts hdisk hsize
  subst hparts hdisk hsize
  rfl

/-- C2: from the top of the loop, with both highlights in range, `ESC`, a second byte
(`'['` or any other) and `'A'` set `part_highlight` to `(part_highlight - 1 + 3) % 3`,
`'B'` sets it to `(part_highlight + 1) % 3`, `'C'` sets `menu_highlight` to
`(menu_highlight + 1) % 4` and `'D'` sets it to `(menu_highlight - 1 + 4) % 4`, nothing
else changing; any other third byte, and any key that is neither `ESC` nor newline, change
no variable; in all these cases the program is back at the top of the loop. -/
theorem C2_arrow_keys_move_with_wraparound (tw : Int) (m : Machine) (b : Int)
    (hpc : m.pc = .top) (hrun : m.vars.running ≠ 0) (hr : InRange m.vars) :
    n_partitions = 3 ∧ n_menu_choices = 4 ∧
    (∃ m', exec tw m [27, b, 65] = some m' ∧ m'.pc = .top ∧
      m'.vars = { m.vars with part_highlight := (m.vars.part_highlight - 1 + 3) % 3 }) ∧
    (∃ m', exec tw m [27, b, 66] = some m' ∧ m'.pc = .top ∧
      m'.vars = { m.vars with part_highlight := (m.vars.part_highlight + 1) % 3 }) ∧
    (∃ m', exec tw m [27, b, 67] = some m' ∧ m'.pc = .top ∧
      m'.vars = { m.vars with menu_highlight := (m.vars.menu_highlight + 1) % 4 }) ∧
    (∃ m', exec tw m [27, b, 68] = some m' ∧ m'.pc = .top ∧
      m'.vars = { m.vars with menu_highlight := (m.vars.menu_highlight - 1 + 4) % 4 }) ∧
    (m.vars.part_highlight = 0 → (m.vars.part_highlight - 1 + 3) % 3 = 2) ∧
    (m.vars.part_highlight = 2 → (m.vars.part_highlight + 1) % 3 = 0) ∧
    (∀ d : Int, 0 ≤ d → d ≤ 255 → d ≠ 65 → d ≠ 66 → d ≠ 67 → d ≠ 68 →
      ∃ m', exec tw m [27, b, d] = some m' ∧ m'.pc = .top ∧ m'.vars = m.vars) ∧
    (∀ c : Int, 0 ≤ c → c ≤ 255 → c ≠ 27 → c ≠ 10 →
      ∃ m', exec tw m [c] = some m' ∧ m'.pc = .top ∧ m'.vars = m.vars) := by
  refine ⟨n_partitions_eq, n_menu_choices_eq, ?_, ?_, ?_, ?_, ?_, ?_, ?_, ?_⟩
  · obtain ⟨m', h1, h2, h3, -, -⟩ := exec_up tw m b hpc hrun hr
    exact ⟨m', h1, h2, h3⟩
  · obtain ⟨m', h1, h2, h3, -, -⟩ := exec_down tw m b hpc hrun hr
    exact ⟨m', h1, h2, h3⟩
  · obtain ⟨m', h1, h2, h3, -, -⟩ := exec_right tw m b hpc hrun hr
    exact ⟨m', h1, h2, h3⟩
  · obtain ⟨m', h1, h2, h3, -, -⟩ := exec_left tw m b hpc hrun hr
    exact ⟨m', h1, h2, h3⟩
  · intro h; rw [h]; decide
  · intro h; rw [h]; decide
  · intro d hd0 hd1 h65 h66 h67 h68
    exact exec_esc_other tw m b d hpc hrun (by omega) hd1 h65 h66 h67 h68
  · intro c hc0 hc1 h27 h10
    exact exec_plain_key tw m c hpc hrun (by omega) hc1 h27 h10

/-- C3: starting from `part_highlight = 0` and `menu_highlight = 0`, after any values
returned by the `getchar()` calls the program has run without undefined behaviour,
`0 <= part_highlight < n_partitions = 3` and `0 <= menu_highlight < n_menu_choices = 4`
hold, and the reads `partitions[part_highlight]` and `menu_choices[menu_highlight]` are
within bounds.  The frame `show_diskman` prints for these variables is the one at the end
of the output whenever the program waits in the menu; it has ten lines; of its three
partition rows exactly the one at `part_highlight` is wrapped in reverse video
(`ESC[7m` row `ESC[0m`) and the others hold no escape sequence; of its four menu items
exactly the one at `menu_highlight` is wrapped in reverse video inside its brackets and the
others hold no escape sequence. -/
theorem C3_highlights_stay_in_range (tw : Int) (keys : List Int) :
    ∃ m frame, exec tw (init tw) keys = some m ∧
      (init tw).vars.part_highlight = 0 ∧ (init tw).vars.menu_highlight = 0 ∧
      n_partitions = 3 ∧ n_menu_choices = 4 ∧
      0 ≤ m.vars.part_highlight ∧ m.vars.part_highlight < n_partitions ∧
      0 ≤ m.vars.menu_highlight ∧ m.vars.menu_highlight < n_menu_choices ∧
      (arrayRead m.vars.partitions m.vars.part_highlight).isSome = true ∧
      (arrayRead menu_choices m.vars.menu_highlight).isSome = true ∧
      (∀ padding : Nat,
        (partitionLines padding m.vars.part_highlight m.vars.partitions).countP
          isHighlighted = 1) ∧
      (menuItems m.vars.menu_highlight).countP isHighlighted = 1 ∧
      frame = show_diskman tw m.vars.partitions m.vars.part_highlight
        m.vars.menu_highlight m.vars.disk m.vars.size_info ∧
      (m.pc = .waitEnter ∨ m.pc = .exited ∨ ∃ pre, m.out = pre ++ frame) ∧
      (splitLines frame).length = 10 ∧
      shownRows frame =
        (m.vars.partitions.enum.map fun ip =>
          if (ip.1 : Int) = m.vars.part_highlight then
            reverseVideo ++ rowText ip.2 ++ resetVideo
          else rowText ip.2) ∧
      (shownRows frame).countP isMarked = 1 ∧
      (shownRows frame).countP hasEscape = 1 ∧
      shownMenuWords frame =
        (menu_choices.enum.map fun ic =>
          if (ic.1 : Int) = m.vars.menu_highlight then
            ['['] ++ reverseVideo ++ ic.2.toList ++ resetVideo ++ [']']
          else ['['] ++ ic.2.toList ++ [']']) ++ [[]] ∧
      (shownMenuWords frame).countP isMarkedItem = 1 ∧
      (shownMenuWords frame).countP hasEscape = 1 := by
  obtain ⟨m, hm, hparts, hdisk, hsize, ⟨hp0, hp1, hm0, hm1⟩, -⟩ :=
    exec_inv tw keys (init tw) (inv_init tw)
  obtain ⟨p, hp⟩ := arrayRead_partitions_isSome _ hp0 hp1
  obtain ⟨choice, hc, -⟩ := arrayRead_menu_choices _ hm0 hm1
  have hshown : FrameShown tw m :=
    exec_frameShown tw keys (init tw) m (frameShown_loopHead tw initVars hide_cursor) hm
  obtain ⟨hlines, hrows, hwords⟩ :=
    frame_observed tw m.vars.part_highlight m.vars.menu_highlight hp0 hp1 hm0 hm1
  obtain ⟨hrow1, hrow2⟩ :=
    one_row_marked tw m.vars.part_highlight m.vars.menu_highlight hp0 hp1 hm0 hm1
  obtain ⟨hitem1, hitem2⟩ :=
    one_item_marked tw m.vars.part_highlight m.vars.menu_highlight hp0 hp1 hm0 hm1
  refine ⟨m, _, hm, ?_, ?_, n_partitions_eq, n_menu_choices_eq, hp0, hp1, hm0, hm1, ?_, ?_,
    ?_, one_menu_item_highlighted _ hm0 hm1, rfl, hshown, ?_, ?_, ?_, ?_, ?_, ?_, ?_⟩
  · unfold init; rw [loopHead_vars]; rfl
  · unfold init; rw [loopHead_vars]; rfl
  · rw [hparts, hp]; rfl
  · rw [hc]; rfl
  · intro padding
    rw [hparts]
    exact one_partition_line_highlighted padding _ hp0 hp1
  · rw [hparts, hdisk, hsize]; exact hlines
  · rw [hparts, hdisk, hsize]; exact hrows
  · rw [hparts, hdisk, hsize]; exact hrow1
  · rw [hparts, hdisk, hsize]; exact hrow2
  · rw [hparts, hdisk, hsize]; exact hwords
  · rw [hparts, hdisk, hsize]; exact hitem1
  · rw [hparts, hdisk, hsize]; exact hitem2

/-- C4: at the top of the loop with the highlights in range, a newline stops the loop
(`running` becomes `0`, the loop is left) exactly when `menu_highlight` is `0`, the index
of `"Quit"`; when another entry is selected, everything up to and including the next
newline is consumed with no variable changed and the program is back at the top of the
loop; and a step changes `running` to `0` only if it is a newline read at the top of the
loop. -/
theorem C4_loop_stops_on_confirmed_quit (tw : Int) (m : Machine)
    (hpc : m.pc = .top) (hrun : m.vars.running = 1) (hr : InRange m.vars)
    (hlen : (m.vars.partitions.length : Int) = n_partitions) :
    (∃ m', step tw m 10 = some m' ∧
      (m'.vars.running = 0 ↔ m.vars.menu_highlight = 0) ∧
      (m'.pc = .exited ↔ m.vars.menu_highlight = 0)) ∧
    (arrayRead menu_choices m.vars.menu_highlight = some "Quit"
      ↔ m.vars.menu_highlight = 0) ∧
    (m.vars.menu_highlight ≠ 0 → ∀ junk : List Int, (∀ g ∈ junk, g ≠ 10) →
      (∃ mw, exec tw m (10 :: junk) = some mw ∧ mw.pc = .waitEnter ∧ mw.vars = m.vars) ∧
      (∃ m', exec tw m (10 :: junk ++ [10]) = some m' ∧ m'.pc = .top ∧
        m'.vars = m.vars ∧ m'.vars.running = 1)) ∧
    (∀ (m0 m1 : Machine) (g : Int), -1 ≤ g → g ≤ 255 → step tw m0 g = some m1 →
      m0.vars.running ≠ 0 → m1.vars.running = 0 → m0.pc = .top ∧ g = 10) := by
  obtain ⟨hp0, hp1, hm0, hm1⟩ := hr
  obtain ⟨p, hp⟩ := arrayRead_of_length m.vars.partitions m.vars.part_highlight hp0
    (by rw [hlen]; exact hp1)
  obtain ⟨choice, hc, hq⟩ := arrayRead_menu_choices _ hm0 hm1
  have hstep := step_top_enter tw m 10 p choice hpc toChar_10 hp hc
  refine ⟨?_, ?_, ?_, ?_⟩
  · by_cases hquit : choice = "Quit"
    · rw [if_pos hquit] at hstep
      have h0 := hq.1 hquit
      refine ⟨_, hstep, ?_, ?_⟩
      · rw [loopHead_vars]
        exact ⟨fun _ => h0, fun _ => rfl⟩
      · exact ⟨fun _ => h0, fun _ => loopHead_pc_stopped tw _ _ rfl⟩
    · rw [if_neg hquit] at hstep
      have h0 : m.vars.menu_highlight ≠ 0 := fun h => hquit (hq.2 h)
      refine ⟨_, hstep, ?_, ?_⟩
      · refine ⟨fun h => ?_, fun h => absurd h h0⟩
        simp only at h
        rw [hrun] at h
        exact absurd h (by decide)
      · exact ⟨fun h => Pc.noConfusion h, fun h => absurd h h0⟩
  · rw [hc]
    constructor
    · intro h
      exact hq.1 (Option.some.inj h)
    · intro h
      rw [hq.2 h]
  · intro h0 junk hj
    have hquit : ¬ choice = "Quit" := fun h => h0 (hq.1 h)
    rw [if_neg hquit] at hstep
    obtain ⟨mw, hmw, hpcw, hvw⟩ :
        ∃ mw, step tw m 10 = some mw ∧ mw.pc = .waitEnter ∧ mw.vars = m.vars :=
      ⟨_, hstep, rfl, rfl⟩
    have hjunk : exec tw m (10 :: junk) = some mw := by
      simp only [exec, hmw, Option.some_bind]
      exact exec_waitEnter_junk tw mw junk hpcw hj
    have hrunw : mw.vars.running ≠ 0 := by rw [hvw, hrun]; decide
    refine ⟨⟨mw, hjunk, hpcw, hvw⟩, loopHead tw mw.vars mw.out, ?_,
      loopHead_pc_running tw _ _ hrunw, ?_, ?_⟩
    · have happ : (10 : Int) :: junk ++ [10] = (10 :: junk) ++ [10] := rfl
      rw [happ]
      refine exec_then tw m mw _ _ _ hjunk ?_
      simp only [exec, step_waitEnter_enter tw mw hpcw, Option.some_bind]
    · rw [loopHead_vars]; exact hvw
    · rw [loopHead_vars, hvw]; exact hrun
  · intro m0 m1 g hg0 hg1 hs hne h0
    rcases step_running tw m0 m1 g hs with h | ⟨h1, h2, -, -⟩
    · rw [h0] at h
      exact absurd h.symm hne
    · exact ⟨h1, (toChar_eq_iff g 10 hg0 hg1 (by decide) (by decide)).1 h2⟩

/-- C5: every entry of the hardcoded table has `start <= end` and an `end` below the sector
count shown in `size_info` (85438958); two different entries have disjoint inclusive
ranges `[start, end]`; and the entries stand in strictly ascending order of `start`. -/
theorem C5_partition_invariant (p q : Partition) (hp : p ∈ partitions)
    (hq : q ∈ partitions) :
    p.start ≤ p.end_ ∧
    shownSectorCount size_info = some 85438958 ∧ p.end_ < 85438958 ∧
    (p = q ∨ ∀ x : Nat, ¬ (p.start ≤ x ∧ x ≤ p.end_ ∧ q.start ≤ x ∧ x ≤ q.end_)) ∧
    partitions.Nodup ∧
    partitions.Pairwise (fun a b => a.start < b.start) := by
  have hs : shownSectorCount size_info = some 85438958 := by decide
  have hn : partitions.Nodup := by decide
  have hpw : partitions.Pairwise (fun a b => a.start < b.start) := by decide
  simp only [partitions, List.mem_cons, List.mem_singleton, List.not_mem_nil, or_false]
    at hp hq
  rcases hp with rfl | rfl | rfl <;> rcases hq with rfl | rfl | rfl <;>
    refine ⟨by decide, hs, by decide, ?_, hn, hpw⟩ <;>
    first
      | exact Or.inl rfl
      | exact Or.inr (fun x hx => by dsimp only at hx; omega)

/-- C6: in every entry of the hardcoded table `sectors = end - start + 1`, that is
`end = start + sectors - 1`, the range being inclusive and `start <= end`. -/
theorem C6_sectors_is_inclusive_length (p : Partition) (hp : p ∈ partitions) :
    p.start ≤ p.end_ ∧ p.sectors = p.end_ - p.start + 1 ∧
      p.end_ = p.start + p.sectors - 1 := by
  simp only [partitions, List.mem_cons, List.mem_singleton, List.not_mem_nil, or_false]
    at hp
  rcases hp with rfl | rfl | rfl <;> decide

/-- C7 (what the code prints): header `i` is printed with `widths[i]` while the row prints
its columns with `widths[0], widths[2], ..., widths[7]`; the titles `Start` and `Type` and
the device names are longer than their widths; the header line has 64 characters, every
partition row 70, and `table_width` is 59. -/
theorem C7_column_layout_evaluated :
    (headers.enum.map fun ih => (ih.2, width ih.1, ih.2.length)) =
      [("Device", 11, 6), ("Start", 1, 5), ("End", 10, 3), ("Sectors", 10, 7),
        ("Size", 10, 4), ("Id", 7, 2), ("Type", 3, 4)] ∧
    [width 0, width 2, width 3, width 4, width 5, width 6, width 7] =
      [11, 10, 10, 10, 7, 3, 12] ∧
    (partitions.map fun p => (p.device.length, width 0)) = [(12, 11), (12, 11), (12, 11)] ∧
    (headers.enum.map fun ih => (headerCell ih.1 ih.2).length) = [12, 6, 11, 11, 11, 8, 5] ∧
    (partitions.map fun p => (rowCells p).map List.length) =
      [[12, 10, 10, 10, 7, 3, 12], [12, 10, 10, 10, 7, 3, 12], [12, 10, 10, 10, 7, 3, 12]] ∧
    headerLine.length = 64 ∧
    (partitions.map fun p => (rowText p).length) = [70, 70, 70] ∧
    table_width = 59 := by
  decide

/-- C8 (what the table holds): the labels `500M` and `3G` are `sectors * 512` in binary
units, but the second entry has 1071104 sectors, 548405248 bytes or 523 MiB, under the
label `512M`, which denotes 536870912 bytes. -/
theorem C8_size_labels_evaluated :
    (partitions.map fun p => (p.size, p.sectors * 512, labelBytes p.size)) =
      [("500M", 524288000, some 524288000), ("512M", 548405248, some 536870912),
        ("3G", 3221225472, some 3221225472)] ∧
    548405248 = 523 * 2 ^ 20 := by
  decide

/-- C9: from the top of the loop with the highlights in range, Up then Down, Down then Up,
Left then Right and Right then Left leave every variable as it was, and so do
`n_partitions` Downs, `n_partitions` Ups, `n_menu_choices` Rights and `n_menu_choices`
Lefts; each time the program is back at the top of the loop. -/
theorem C9_opposite_arrows_cancel (tw : Int) (m : Machine)
    (hpc : m.pc = .top) (hrun : m.vars.running ≠ 0) (hr : InRange m.vars) :
    (∃ m', exec tw m (keyUp ++ keyDown) = some m' ∧ m'.pc = .top ∧ m'.vars = m.vars) ∧
    (∃ m', exec tw m (keyDown ++ keyUp) = some m' ∧ m'.pc = .top ∧ m'.vars = m.vars) ∧
    (∃ m', exec tw m (keyLeft ++ keyRight) = some m' ∧ m'.pc = .top ∧ m'.vars = m.vars) ∧
    (∃ m', exec tw m (keyRight ++ keyLeft) = some m' ∧ m'.pc = .top ∧ m'.vars = m.vars) ∧
    (∃ m', exec tw m (List.replicate n_partitions.toNat keyDown).flatten = some m' ∧
      m'.pc = .top ∧ m'.vars = m.vars) ∧
    (∃ m', exec tw m (List.replicate n_partitions.toNat keyUp).flatten = some m' ∧
      m'.pc = .top ∧ m'.vars = m.vars) ∧
    (∃ m', exec tw m (List.replicate n_menu_choices.toNat keyRight).flatten = some m' ∧
      m'.pc = .top ∧ m'.vars = m.vars) ∧
    (∃ m', exec tw m (List.replicate n_menu_choices.toNat keyLeft).flatten = some m' ∧
      m'.pc = .top ∧ m'.vars = m.vars) := by
  have hr' := hr
  obtain ⟨hp0, hp1, hm0, hm1⟩ := hr'
  rw [n_partitions_eq] at hp1
  rw [n_menu_choices_eq] at hm1
  have e3d : (List.replicate n_partitions.toNat keyDown).flatten
      = keyDown ++ (keyDown ++ keyDown) := by decide
  have e3u : (List.replicate n_partitions.toNat keyUp).flatten
      = keyUp ++ (keyUp ++ keyUp) := by decide
  have e4r : (List.replicate n_menu_choices.toNat keyRight).flatten
      = keyRight ++ (keyRight ++ (keyRight ++ keyRight)) := by decide
  have e4l : (List.replicate n_menu_choices.toNat keyLeft).flatten
      = keyLeft ++ (keyLeft ++ (keyLeft ++ keyLeft)) := by decide
  refine ⟨?_, ?_, ?_, ?_, ?_, ?_, ?_, ?_⟩
  · obtain ⟨m1, e1, p1, v1, r1, i1⟩ := exec_up tw m 91 hpc hrun hr
    obtain ⟨m2, e2, p2, v2, -, -⟩ := exec_down tw m1 91 p1 r1 i1
    refine ⟨m2, exec_then tw m m1 m2 _ _ e1 e2, p2, ?_⟩
    rw [v2, v1]
    apply Vars.ext <;> dsimp only
    simp only [n_partitions_eq]
    omega
  · obtain ⟨m1, e1, p1, v1, r1, i1⟩ := exec_down tw m 91 hpc hrun hr
    obtain ⟨m2, e2, p2, v2, -, -⟩ := exec_up tw m1 91 p1 r1 i1
    refine ⟨m2, exec_then tw m m1 m2 _ _ e1 e2, p2, ?_⟩
    rw [v2, v1]
    apply Vars.ext <;> dsimp only
    simp only [n_partitions_eq]
    omega
  · obtain ⟨m1, e1, p1, v1, r1, i1⟩ := exec_left tw m 91 hpc hrun hr
    obtain ⟨m2, e2, p2, v2, -, -⟩ := exec_right tw m1 91 p1 r1 i1
    refine ⟨m2, exec_then tw m m1 m2 _ _ e1 e2, p2, ?_⟩
    rw [v2, v1]
    apply Vars.ext <;> dsimp only
    simp only [n_menu_choices_eq]
    omega
  · obtain ⟨m1, e1, p1, v1, r1, i1⟩ := exec_right tw m 91 hpc hrun hr
    obtain ⟨m2, e2, p2, v2, -, -⟩ := exec_left tw m1 91 p1 r1 i1
    refine ⟨m2, exec_then tw m m1 m2 _ _ e1 e2, p2, ?_⟩
    rw [v2, v1]
    apply Vars.ext <;> dsimp only
    simp only [n_menu_choices_eq]
    omega
  · obtain ⟨m1, e1, p1, v1, r1, i1⟩ := exec_down tw m 91 hpc hrun hr
    obtain ⟨m2, e2, p2, v2, r2, i2⟩ := exec_down tw m1 91 p1 r1 i1
    obtain ⟨m3, e3, p3, v3, -, -⟩ := exec_down tw m2 91 p2 r2 i2
    rw [e3d]
    refine ⟨m3, exec_then tw m m1 m3 _ _ e1 (exec_then tw m1 m2 m3 _ _ e2 e3), p3, ?_⟩
    rw [v3, v2, v1]
    apply Vars.ext <;> dsimp only
    simp only [n_partitions_eq]
    omega
  · obtain ⟨m1, e1, p1, v1, r1, i1⟩ := exec_up tw m 91 hpc hrun hr
    obtain ⟨m2, e2, p2, v2, r2, i2⟩ := exec_up tw m1 91 p1 r1 i1
    obtain ⟨m3, e3, p3, v3, -, -⟩ := exec_up tw m2 91 p2 r2 i2
    rw [e3u]
    refine ⟨m3, exec_then tw m m1 m3 _ _ e1 (exec_then tw m1 m2 m3 _ _ e2 e3), p3, ?_⟩
    rw [v3, v2, v1]
    apply Vars.ext <;> dsimp only
    simp only [n_partitions_eq]
    omega
  · obtain ⟨m1, e1, p1, v1, r1, i1⟩ := exec_right tw m 91 hpc hrun hr
    obtain ⟨m2, e2, p2, v2, r2, i2⟩ := exec_right tw m1 91 p1 r1 i1
    obtain ⟨m3, e3, p3, v3, r3, i3⟩ := exec_right tw m2 91 p2 r2 i2
    obtain ⟨m4, e4, p4, v4, -, -⟩ := exec_right tw m3 91 p3 r3 i3
    rw [e4r]
    refine ⟨m4, exec_then tw m m1 m4 _ _ e1
      (exec_then tw m1 m2 m4 _ _ e2 (exec_then tw m2 m3 m4 _ _ e3 e4)), p4, ?_⟩
    rw [v4, v3, v2, v1]
    apply Vars.ext <;> dsimp only
    simp only [n_menu_choices_eq]
    omega
  · obtain ⟨m1, e1, p1, v1, r1, i1⟩ := exec_left tw m 91 hpc hrun hr
    obtain ⟨m2, e2, p2, v2, r2, i2⟩ := exec_left tw m1 91 p1 r1 i1
    obtain ⟨m3, e3, p3, v3, r3, i3⟩ := exec_left tw m2 91 p2 r2 i2
    obtain ⟨m4, e4, p4, v4, -, -⟩ := exec_left tw m3 91 p3 r3 i3
    rw [e4l]
    refine ⟨m4, exec_then tw m m1 m4 _ _ e1
      (exec_then tw m1 m2 m4 _ _ e2 (exec_then tw m2 m3 m4 _ _ e3 e4)), p4, ?_⟩
    rw [v4, v3, v2, v1]
    apply Vars.ext <;> dsimp only
    simp only [n_menu_choices_eq]
    omega

/-! ## The theorems at concrete inputs -/

/-- The arrow-key theorem at the initial configuration of an 80-column terminal: Up moves
the partition highlight from `0` to `2`. -/
theorem C2_arrow_keys_witness :
    (init 80).pc = .top ∧ (init 80).vars.running ≠ 0 ∧ InRange (init 80).vars ∧
    (∃ m', exec 80 (init 80) [27, 91, 65] = some m' ∧ m'.pc = .top ∧
      m'.vars = { (init 80).vars with
        part_highlight := ((init 80).vars.part_highlight - 1 + 3) % 3 }) ∧
    ((init 80).vars.part_highlight - 1 + 3) % 3 = 2 :=
  ⟨by decide, by decide, by decide,
    (C2_arrow_keys_move_with_wraparound 80 (init 80) 91 (by decide) (by decide)
      (by decide)).2.2.1,
    (C2_arrow_keys_move_with_wraparound 80 (init 80) 91 (by decide) (by decide)
      (by decide)).2.2.2.2.2.2.1 (by decide)⟩

/-- The Enter theorem with the third partition and `Resize` highlighted: Enter, two other
keys and Enter again bring the program back to the top of the loop, nothing changed. -/
theorem C4_loop_stops_witness :
    (atTop 2 1).pc = .top ∧ (atTop 2 1).vars.running = 1 ∧ InRange (atTop 2 1).vars ∧
    ((atTop 2 1).vars.partitions.length : Int) = n_partitions ∧
    (∃ m', exec 80 (atTop 2 1) (10 :: [120, 121] ++ [10]) = some m' ∧ m'.pc = .top ∧
      m'.vars = (atTop 2 1).vars ∧ m'.vars.running = 1) :=
  ⟨by decide, by decide, by decide, by decide,
    ((C4_loop_stops_on_confirmed_quit 80 (atTop 2 1) (by decide) (by decide) (by decide)
      (by decide)).2.2.1 (by decide) [120, 121] (by decide)).2⟩

/-- The table invariant at the first two entries. -/
theorem C5_partition_invariant_witness :
    (⟨"/dev/nvme0n1", 2048, 1026047, 1024000, "500M", "83", "Linux"⟩ : Partition)
      ∈ partitions ∧
    (⟨"/dev/nvme0n2", 1026048, 2097151, 1071104, "512M", "82", "Linux swap"⟩ : Partition)
      ∈ partitions ∧
    (2048 : Nat) ≤ 1026047 ∧ (1026047 : Nat) < 85438958 ∧
    ∀ x : Nat, ¬ (2048 ≤ x ∧ x ≤ 1026047 ∧ 1026048 ≤ x ∧ x ≤ 2097151) := by
  have hp : (⟨"/dev/nvme0n1", 2048, 1026047, 1024000, "500M", "83", "Linux"⟩ : Partition)
      ∈ partitions := by decide
  have hq : (⟨"/dev/nvme0n2", 1026048, 2097151, 1071104, "512M", "82", "Linux swap"⟩ :
      Partition) ∈ partitions := by decide
  have h := C5_partition_invariant _ _ hp hq
  refine ⟨hp, hq, h.1, h.2.2.1, ?_⟩
  rcases h.2.2.2.1 with heq | hdis
  · exact absurd heq (by decide)
  · exact hdis

/-- The sector-count theorem at the second entry. -/
theorem C6_sectors_witness :
    (⟨"/dev/nvme0n2", 1026048, 2097151, 1071104, "512M", "82", "Linux swap"⟩ : Partition)
      ∈ partitions ∧
    (1026048 : Nat) ≤ 2097151 ∧ (1071104 : Nat) = 2097151 - 1026048 + 1 ∧
    (2097151 : Nat) = 1026048 + 1071104 - 1 :=
  ⟨by decide,
    C6_sectors_is_inclusive_length
      ⟨"/dev/nvme0n2", 1026048, 2097151, 1071104, "512M", "82", "Linux swap"⟩ (by decide)⟩

/-- The cancellation theorem with the third partition and `Write` highlighted: Up then
Down, and four Rights, change nothing. -/
theorem C9_opposite_arrows_witness :
    (atTop 2 3).pc = .top ∧ (atTop 2 3).vars.running ≠ 0 ∧ InRange (atTop 2 3).vars ∧
    (∃ m', exec 80 (atTop 2 3) (keyUp ++ keyDown) = some m' ∧ m'.pc = .top ∧
      m'.vars = (atTop 2 3).vars) ∧
    (∃ m', exec 80 (atTop 2 3) (List.replicate n_menu_choices.toNat keyRight).flatten
      = some m' ∧ m'.pc = .top ∧ m'.vars = (atTop 2 3).vars) :=
  ⟨by decide, by decide, by decide,
    (C9_opposite_arrows_cancel 80 (atTop 2 3) (by decide) (by decide) (by decide)).1,
    (C9_opposite_arrows_cancel 80 (atTop 2 3) (by decide) (by decide)
      (by decide)).2.2.2.2.2.2.1⟩

end Diskman
